import Mathlib

/-!
Verification of the extraction / cleaning / deduplication / ranking / export
pipeline of the two scraper scripts in this repository
(`nike_scraper.py` and `welcome_jungle_scraper (1).py`).

Strings are modelled as `List Char`; Python floats are modelled as rationals
(only exact parsing and comparison of decimal literals occurs in the code);
Python ints are modelled as `Int`.  Fallible numeric conversion is modelled
with `Option`.
-/

/-- Model of Python's notion of whitespace as used by `str.strip()`
(restricted to the ASCII whitespace characters). -/
def pyIsSpace (c : Char) : Bool :=
  c == ' ' || c == '\t' || c == '\n' || c == '\r' || c == '\x0b' || c == '\x0c'

/-- Model of Python `str.strip()`: drop whitespace from both ends. -/
def pyStrip (s : List Char) : List Char :=
  ((s.dropWhile pyIsSpace).reverse.dropWhile pyIsSpace).reverse

/-- Model of Python `str.lower()` (ASCII case folding, which is all the
cleaning rules rely on). -/
def pyLower (s : List Char) : List Char := s.map Char.toLower

/-- Predicate `leadsWith pat s` is true when `pat` is an initial segment of `s`
(used to model Python's substring test). -/
def leadsWith : List Char → List Char → Bool
  | [], _ => true
  | _ :: _, [] => false
  | c :: cs, d :: ds => c == d && leadsWith cs ds

/-- Model of Python's `pat in s` substring containment test. -/
def containsSub (pat : List Char) : List Char → Bool
  | [] => leadsWith pat []
  | d :: ds => leadsWith pat (d :: ds) || containsSub pat ds

/-- Model of `re.search(r'(\d+)', s)`: the first contiguous run of ASCII
digits in `s`, or `none` when `s` has no digit. -/
def firstDigitRun : List Char → Option (List Char)
  | [] => none
  | c :: rest =>
    if c.isDigit then some (c :: rest.takeWhile Char.isDigit)
    else firstDigitRun rest

theorem leadsWith_iff (pat s : List Char) :
    leadsWith pat s = true ↔ ∃ t, s = pat ++ t := by
  induction pat generalizing s with
  | nil => simp [leadsWith]
  | cons c cs ih =>
    cases s with
    | nil => simp [leadsWith]
    | cons d ds =>
      simp only [leadsWith, Bool.and_eq_true, beq_iff_eq, ih]
      constructor
      · rintro ⟨rfl, t, rfl⟩; exact ⟨t, rfl⟩
      · rintro ⟨t, h⟩
        injection h with h1 h2
        exact ⟨h1.symm, t, h2⟩

theorem containsSub_iff (pat s : List Char) :
    containsSub pat s = true ↔ ∃ a b, s = a ++ (pat ++ b) := by
  induction s with
  | nil =>
    simp only [containsSub, leadsWith_iff]
    constructor
    · rintro ⟨t, h⟩; exact ⟨[], t, h⟩
    · rintro ⟨a, b, h⟩
      rcases List.append_eq_nil.mp h.symm with ⟨rfl, h2⟩
      exact ⟨b, h2.symm⟩
  | cons d ds ih =>
    simp only [containsSub, Bool.or_eq_true, leadsWith_iff, ih]
    constructor
    · rintro (⟨t, h⟩ | ⟨a, b, h⟩)
      · exact ⟨[], t, h⟩
      · exact ⟨d :: a, b, by simp [h]⟩
    · rintro ⟨a, b, h⟩
      cases a with
      | nil => exact Or.inl ⟨b, h⟩
      | cons x xs =>
        injection h with h1 h2
        exact Or.inr ⟨xs, b, h2⟩

theorem bool_of_iff {a b : Bool} (h : a = true ↔ b = true) : a = b := by
  cases a <;> cases b <;> simp_all

/-- Substring containment in a reversed list is containment of the reversed
pattern. -/
theorem containsSub_reverse (pat x : List Char) :
    containsSub pat x.reverse = containsSub pat.reverse x := by
  apply bool_of_iff
  simp only [containsSub_iff]
  constructor
  · rintro ⟨a, b, h⟩
    refine ⟨b.reverse, a.reverse, ?_⟩
    have := congrArg List.reverse h
    simpa [List.append_assoc] using this
  · rintro ⟨a, b, h⟩
    refine ⟨b.reverse, a.reverse, ?_⟩
    have := congrArg List.reverse h
    simpa [List.append_assoc] using this

/-- Dropping a leading block of characters that cannot begin the pattern
(after mapping) does not change substring containment.  Used to show that
`str.strip()` is invisible to the `'yesterday' in …` test. -/
theorem containsSub_map_dropWhile (h : Char) (tl : List Char) (f : Char → Char)
    (p : Char → Bool) (hp : ∀ c, p c = true → f c ≠ h) (s : List Char) :
    containsSub (h :: tl) ((s.dropWhile p).map f) =
      containsSub (h :: tl) (s.map f) := by
  apply bool_of_iff
  simp only [containsSub_iff]
  constructor
  · rintro ⟨a, b, hab⟩
    refine ⟨(s.takeWhile p).map f ++ a, b, ?_⟩
    conv_lhs => rw [← List.takeWhile_append_dropWhile (p := p) (l := s)]
    rw [List.map_append, hab]
    simp [List.append_assoc]
  · rintro ⟨a, b, hab⟩
    rw [← List.takeWhile_append_dropWhile (p := p) (l := s), List.map_append]
      at hab
    rcases List.append_eq_append_iff.mp hab with ⟨a', _, ha2⟩ | ⟨c', hc1, hc2⟩
    · exact ⟨a', b, ha2⟩
    · cases c' with
      | nil =>
        refine ⟨[], b, ?_⟩
        simpa using hc2.symm
      | cons x xs =>
        exfalso
        have hxmem : x ∈ (s.takeWhile p).map f := by
          rw [hc1]; exact List.mem_append_right _ (List.mem_cons_self _ _)
        rcases List.mem_map.mp hxmem with ⟨c, hcmem, rfl⟩
        have hpc : p c = true := List.mem_takeWhile_imp hcmem
        have hx : f c = h := by
          have h2 := hc2
          simp only [List.cons_append] at h2
          injection h2 with h1 _
          exact h1.symm
        exact hp c hpc hx

/-- The characters of the literal `'yesterday'`. -/
def yesterdayL : List Char := ['y', 'e', 's', 't', 'e', 'r', 'd', 'a', 'y']

/-- The literal replacement string `"1 days ago"` of the cleaning rule. -/
def oneDaysAgo : List Char := ['1', ' ', 'd', 'a', 'y', 's', ' ', 'a', 'g', 'o']

theorem space_toLower_ne_y (c : Char) (h : pyIsSpace c = true) :
    Char.toLower c ≠ 'y' := by
  simp only [pyIsSpace, Bool.or_eq_true, beq_iff_eq] at h
  rcases h with ((((h | h) | h) | h) | h) | h <;> subst h <;> decide

theorem space_not_digit (c : Char) (h : pyIsSpace c = true) :
    c.isDigit = false := by
  simp only [pyIsSpace, Bool.or_eq_true, beq_iff_eq] at h
  rcases h with ((((h | h) | h) | h) | h) | h <;> subst h <;> decide

theorem digit_not_space (c : Char) (h : c.isDigit = true) :
    pyIsSpace c = false := by
  cases hs : pyIsSpace c with
  | false => rfl
  | true => rw [space_not_digit c hs] at h; cases h

/-- Applying `str.strip()` and then `str.lower()` does not change whether the
string contains `'yesterday'`. -/
theorem containsSub_yesterday_strip (s : List Char) :
    containsSub yesterdayL (pyLower (pyStrip s)) =
      containsSub yesterdayL (pyLower s) := by
  have hy : yesterdayL = 'y' :: ['e', 's', 't', 'e', 'r', 'd', 'a', 'y'] := rfl
  have hyr : yesterdayL.reverse = 'y' :: ['a', 'd', 'r', 'e', 't', 's', 'e', 'y'] := rfl
  unfold pyLower pyStrip
  rw [List.map_reverse, containsSub_reverse, hyr,
    containsSub_map_dropWhile 'y' _ _ _ space_toLower_ne_y, List.map_reverse,
    ← hyr, containsSub_reverse, List.reverse_reverse, hy,
    containsSub_map_dropWhile 'y' _ _ _ space_toLower_ne_y, ← hy]

theorem firstDigitRun_dropWhile (p : Char → Bool)
    (hnd : ∀ c, p c = true → c.isDigit = false) (s : List Char) :
    firstDigitRun (s.dropWhile p) = firstDigitRun s := by
  induction s with
  | nil => rfl
  | cons c rest ih =>
    rw [List.dropWhile_cons]
    by_cases hp : p c = true
    · rw [if_pos hp, ih, firstDigitRun, hnd c hp]; rfl
    · rw [if_neg hp]

theorem firstDigitRun_eq_none (t : List Char)
    (ht : ∀ c ∈ t, c.isDigit = false) : firstDigitRun t = none := by
  induction t with
  | nil => rfl
  | cons c rest ih =>
    rw [firstDigitRun, ht c (List.mem_cons_self _ _)]
    exact ih fun d hd => ht d (List.mem_cons_of_mem _ hd)

theorem takeWhile_digit_append (t : List Char)
    (ht : ∀ c ∈ t, c.isDigit = false) (v : List Char) :
    (v ++ t).takeWhile Char.isDigit = v.takeWhile Char.isDigit := by
  induction v with
  | nil =>
    cases t with
    | nil => rfl
    | cons c rest =>
      simp [List.takeWhile_cons, ht c (List.mem_cons_self _ _)]
  | cons d v' ih =>
    rw [List.cons_append, List.takeWhile_cons, List.takeWhile_cons]
    cases hd : d.isDigit <;> simp [ih]

theorem firstDigitRun_append_nondigit (t : List Char)
    (ht : ∀ c ∈ t, c.isDigit = false) (v : List Char) :
    firstDigitRun (v ++ t) = firstDigitRun v := by
  induction v with
  | nil => simpa using firstDigitRun_eq_none t ht
  | cons c v' ih =>
    rw [List.cons_append, firstDigitRun, firstDigitRun]
    cases hc : c.isDigit
    · simpa using ih
    · simp [takeWhile_digit_append t ht]

/-- Applying `str.strip()` does not change the first contiguous digit run. -/
theorem firstDigitRun_strip (s : List Char) :
    firstDigitRun (pyStrip s) = firstDigitRun s := by
  unfold pyStrip
  have h1 : s.dropWhile pyIsSpace =
      ((s.dropWhile pyIsSpace).reverse.dropWhile pyIsSpace).reverse ++
        ((s.dropWhile pyIsSpace).reverse.takeWhile pyIsSpace).reverse := by
    conv_lhs =>
      rw [← List.reverse_reverse (s.dropWhile pyIsSpace),
        ← List.takeWhile_append_dropWhile (p := pyIsSpace)
          (l := (s.dropWhile pyIsSpace).reverse)]
    rw [List.reverse_append]
  have h2 : firstDigitRun (s.dropWhile pyIsSpace) =
      firstDigitRun (((s.dropWhile pyIsSpace).reverse.dropWhile pyIsSpace).reverse) := by
    conv_lhs => rw [h1]
    exact firstDigitRun_append_nondigit _
      (fun c hc => space_not_digit c
        (List.mem_takeWhile_imp (List.mem_reverse.mp hc))) _
  rw [← h2, firstDigitRun_dropWhile _ space_not_digit]

theorem dropWhile_eq_self_of_none (p : Char → Bool) (l : List Char)
    (h : ∀ c ∈ l, p c = false) : l.dropWhile p = l := by
  cases l with
  | nil => rfl
  | cons c rest => simp [List.dropWhile_cons, h c (List.mem_cons_self _ _)]

theorem pyStrip_eq_self (l : List Char) (h : ∀ c ∈ l, pyIsSpace c = false) :
    pyStrip l = l := by
  unfold pyStrip
  rw [dropWhile_eq_self_of_none _ _ h,
    dropWhile_eq_self_of_none _ _ (fun c hc => h c (List.mem_reverse.mp hc)),
    List.reverse_reverse]

theorem firstDigitRun_some (s r : List Char) (h : firstDigitRun s = some r) :
    r ≠ [] ∧ ∀ c ∈ r, c.isDigit = true := by
  induction s with
  | nil => cases h
  | cons c rest ih =>
    rw [firstDigitRun] at h
    by_cases hc : c.isDigit = true
    · rw [if_pos hc] at h
      injection h with h
      subst h
      refine ⟨by simp, ?_⟩
      intro d hd
      rcases List.mem_cons.mp hd with rfl | hd
      · exact hc
      · exact List.mem_takeWhile_imp hd
    · rw [if_neg hc] at h
      exact ih h

theorem firstDigitRun_of_all_digits (r : List Char) (hne : r ≠ [])
    (h : ∀ c ∈ r, c.isDigit = true) : firstDigitRun r = some r := by
  cases r with
  | nil => exact absurd rfl hne
  | cons d ds =>
    rw [firstDigitRun, if_pos (h d (List.mem_cons_self _ _)),
      List.takeWhile_eq_self_iff.mpr fun c hc => h c (List.mem_cons_of_mem _ hc)]

/-- One job listing, as accumulated by `scrape_welcome_to_jungle`.  All fields
are strings; missing fields are the empty string. -/
structure JobRecord where
  jobTitle : List Char
  companyTitle : List Char
  companySlogan : List Char
  jobType : List Char
  location : List Char
  workLocation : List Char
  industry : List Char
  employesCount : List Char
  postedAgo : List Char
  jobLink : List Char
deriving DecidableEq, Inhabited

/-- Rule (i) of `clean_job_data`: if the stripped, lowercased `Posted_Ago`
contains `'yesterday'`, replace the field by the literal `"1 days ago"`. -/
def cleanPosted (s : List Char) : List Char :=
  if !s.isEmpty && containsSub yesterdayL (pyLower (pyStrip s)) then oneDaysAgo
  else s

/-- Rule (ii) of `clean_job_data`: replace a non-empty `Employes_Count` by the
first digit run found in its stripped text, if any. -/
def cleanCount (s : List Char) : List Char :=
  if !s.isEmpty then
    match firstDigitRun (pyStrip s) with
    | some run => run
    | none => s
  else s

/-- Model of `clean_job_data`: rewrite `Posted_Ago` and `Employes_Count`,
leave every other field unchanged. -/
def clean_job_data (j : JobRecord) : JobRecord :=
  { j with
    postedAgo := cleanPosted j.postedAgo
    employesCount := cleanCount j.employesCount }

theorem cleanPosted_eq (s : List Char) :
    cleanPosted s =
      if containsSub yesterdayL (pyLower s) = true then oneDaysAgo else s := by
  unfold cleanPosted
  cases s with
  | nil => simp [pyLower, containsSub, leadsWith, yesterdayL]
  | cons c rest =>
    rw [containsSub_yesterday_strip]
    simp

theorem cleanCount_eq (s : List Char) :
    cleanCount s =
      match firstDigitRun s with
      | some run => run
      | none => s := by
  unfold cleanCount
  cases s with
  | nil => rfl
  | cons c rest => rw [firstDigitRun_strip]; simp

theorem cleanPosted_idem (s : List Char) :
    cleanPosted (cleanPosted s) = cleanPosted s := by
  rw [cleanPosted_eq s]
  by_cases h : containsSub yesterdayL (pyLower s) = true
  · rw [if_pos h, cleanPosted_eq, if_neg (by decide)]
  · rw [if_neg h, cleanPosted_eq, if_neg h]

theorem cleanCount_idem (s : List Char) :
    cleanCount (cleanCount s) = cleanCount s := by
  rw [cleanCount_eq s]
  cases h : firstDigitRun s with
  | none => rw [cleanCount_eq, h]
  | some run =>
    rcases firstDigitRun_some s run h with ⟨hne, hdig⟩
    rw [cleanCount_eq, firstDigitRun_of_all_digits run hne hdig]

/-- C7: `clean_job_data` rewrites `Posted_Ago` to exactly `"1 days ago"` when
it case-insensitively contains `"yesterday"` and leaves it unchanged
otherwise; rewrites `Employes_Count` to exactly its first contiguous digit
run when one exists and leaves it unchanged otherwise; leaves every other
field unchanged; e.g. `"45 employees"` becomes `"45"` and
`"about 10-15 employees"` becomes `"10"`. -/
theorem clean_rewrites_fields (j : JobRecord) :
    ((clean_job_data j).postedAgo =
        if containsSub yesterdayL (pyLower j.postedAgo) = true then oneDaysAgo
        else j.postedAgo)
      ∧ ((clean_job_data j).employesCount =
          match firstDigitRun j.employesCount with
          | some run => run
          | none => j.employesCount)
      ∧ (clean_job_data j).jobTitle = j.jobTitle
      ∧ (clean_job_data j).companyTitle = j.companyTitle
      ∧ (clean_job_data j).companySlogan = j.companySlogan
      ∧ (clean_job_data j).jobType = j.jobType
      ∧ (clean_job_data j).location = j.location
      ∧ (clean_job_data j).workLocation = j.workLocation
      ∧ (clean_job_data j).industry = j.industry
      ∧ (clean_job_data j).jobLink = j.jobLink
      ∧ cleanCount ['4', '5', ' ', 'e', 'm', 'p', 'l', 'o', 'y', 'e', 'e', 's']
          = ['4', '5']
      ∧ cleanCount ['a', 'b', 'o', 'u', 't', ' ', '1', '0', '-', '1', '5', ' ',
          'e', 'm', 'p', 'l', 'o', 'y', 'e', 'e', 's'] = ['1', '0'] := by
  refine ⟨?_, ?_, ?_, ?_, ?_, ?_, ?_, ?_, ?_, ?_, by decide, by decide⟩
  · rw [show (clean_job_data j).postedAgo = cleanPosted j.postedAgo from rfl,
      cleanPosted_eq]
  · rw [show (clean_job_data j).employesCount = cleanCount j.employesCount
        from rfl, cleanCount_eq]
  all_goals rfl

/-- C8: the cleaning function is idempotent. -/
theorem clean_idempotent (j : JobRecord) :
    clean_job_data (clean_job_data j) = clean_job_data j := by
  simp [clean_job_data, cleanPosted_idem, cleanCount_idem]

/-- Job-variant deduplication loop: skip a record whose `Job_Link` is
non-empty and already seen; insert a record with a new non-empty link; keep a
record whose link is empty. -/
def dedupJobsAux : List (List Char) → List JobRecord → List JobRecord
  | _, [] => []
  | seen, j :: rest =>
    if j.jobLink ≠ [] ∧ j.jobLink ∉ seen then
      j :: dedupJobsAux (j.jobLink :: seen) rest
    else if j.jobLink = [] then j :: dedupJobsAux seen rest
    else dedupJobsAux seen rest

/-- Deduplication as run by `scrape_welcome_to_jungle` (empty seen set). -/
def dedupJobs (jobs : List JobRecord) : List JobRecord := dedupJobsAux [] jobs

/-- Header row of `welcome_to_jungle_jobs.csv`. -/
def jobHeaders : List (List Char) :=
  ["Job_Title".data, "Company_Title".data, "Company_Slogan".data,
    "Job_Type".data, "Location".data, "Work_Location".data, "Industry".data,
    "Employes_Count".data, "Posted_Ago".data, "Job_Link".data]

/-- One CSV row of `save_to_csv`, in header order. -/
def jobRow (j : JobRecord) : List (List Char) :=
  [j.jobTitle, j.companyTitle, j.companySlogan, j.jobType, j.location,
    j.workLocation, j.industry, j.employesCount, j.postedAgo, j.jobLink]

/-- Model of `save_to_csv`: header row followed by one row per record. -/
def jobCsv (data : List JobRecord) : List (List (List Char)) :=
  jobHeaders :: data.map jobRow

/-- The job pipeline after collection: clean, deduplicate, export. -/
def jobPipeline (collected : List JobRecord) : List (List (List Char)) :=
  jobCsv (dedupJobs (collected.map clean_job_data))

theorem dedupJobsAux_sublist (l : List JobRecord) :
    ∀ seen, List.Sublist (dedupJobsAux seen l) l := by
  induction l with
  | nil => intro seen; exact List.Sublist.refl _
  | cons j rest ih =>
    intro seen
    rw [dedupJobsAux]
    split
    · exact List.Sublist.cons₂ _ (ih _)
    · split
      · exact List.Sublist.cons₂ _ (ih _)
      · exact List.Sublist.cons _ (ih _)

theorem dedupJobsAux_filter_empty (l : List JobRecord) :
    ∀ seen, (dedupJobsAux seen l).filter (fun j => j.jobLink.isEmpty)
      = l.filter (fun j => j.jobLink.isEmpty) := by
  induction l with
  | nil => intro seen; rfl
  | cons j rest ih =>
    intro seen
    rw [dedupJobsAux]
    by_cases h1 : j.jobLink ≠ [] ∧ j.jobLink ∉ seen
    · rw [if_pos h1, List.filter_cons, List.filter_cons]
      rw [show (j.jobLink.isEmpty) = false by
        cases hl : j.jobLink <;> simp_all]
      simp [ih]
    · rw [if_neg h1]
      by_cases h2 : j.jobLink = []
      · rw [if_pos h2, List.filter_cons, List.filter_cons]
        rw [show (j.jobLink.isEmpty) = true by simp [h2]]
        simp [ih]
      · rw [if_neg h2, List.filter_cons]
        rw [show (j.jobLink.isEmpty) = false by
          cases hl : j.jobLink <;> simp_all]
        simp [ih]

/-- C4: in the job variant every collected (cleaned, deduplicated) record is
written to the CSV regardless of field completeness — the export is exactly
the header row followed by one row per retained record; deduplication by
`Job_Link` is the only gate (the retained records form a sublist of the
cleaned ones); and records with an empty `Job_Link` are always retained. -/
theorem job_export_no_filter (collected : List JobRecord) :
    jobPipeline collected
        = jobHeaders :: (dedupJobs (collected.map clean_job_data)).map jobRow
      ∧ List.Sublist (dedupJobs (collected.map clean_job_data))
          (collected.map clean_job_data)
      ∧ (dedupJobs (collected.map clean_job_data)).filter
            (fun j => j.jobLink.isEmpty)
          = (collected.map clean_job_data).filter (fun j => j.jobLink.isEmpty) :=
  ⟨rfl, dedupJobsAux_sublist _ _, dedupJobsAux_filter_empty _ _⟩

/-- One product record of the Nike scraper.  The first seven fields come from
the listing card; the remaining seven are placeholders that the accumulation
loop fills with the empty string. -/
structure Product where
  productUrl : List Char
  imageUrl : List Char
  tagging : List Char
  productName : List Char
  description : List Char
  originalPrice : List Char
  discountPrice : List Char
  sizesAvailable : List Char
  vouchers : List Char
  availableColors : List Char
  colorShown : List Char
  styleCode : List Char
  ratingScore : List Char
  reviewCount : List Char
deriving DecidableEq, Inhabited

/-- The accumulation loop of `extract_products_from_page` writes empty
placeholder detail fields onto each newly kept card. -/
def promote (p : Product) : Product :=
  { p with
    sizesAvailable := [], vouchers := [], availableColors := [],
    colorShown := [], styleCode := [], ratingScore := [], reviewCount := [] }

/-- Product-variant deduplication loop of `extract_products_from_page`:
keep a card only when its `productUrl` is non-empty and unseen. -/
def nikeDedupAux : List (List Char) → List Product → List Product
  | _, [] => []
  | seen, p :: rest =>
    if p.productUrl ≠ [] ∧ p.productUrl ∉ seen then
      promote p :: nikeDedupAux (p.productUrl :: seen) rest
    else nikeDedupAux seen rest

theorem nikeDedupAux_sublist (l : List Product) :
    ∀ seen, List.Sublist (nikeDedupAux seen l) (l.map promote) := by
  induction l with
  | nil => intro seen; exact List.Sublist.refl _
  | cons p rest ih =>
    intro seen
    rw [nikeDedupAux, List.map_cons]
    split
    · exact List.Sublist.cons₂ _ (ih _)
    · exact List.Sublist.cons _ (ih _)

/-- A legitimate product card whose URL is empty. -/
def emptyUrlCard : Product :=
  { productUrl := [], imageUrl := [], tagging := [],
    productName := ['A'], description := [],
    originalPrice := ['₱', '9'], discountPrice := ['₱', '9'],
    sizesAvailable := [], vouchers := [], availableColors := [],
    colorShown := [], styleCode := [], ratingScore := [], reviewCount := [] }

/-- C3 counterexample: the claim says a record whose identity field is empty
is always kept in both variants, so feeding two empty-identity records should
retain both; but the product-variant deduplicator drops every record whose
`productUrl` is empty. -/
theorem nike_dedup_drops_empty_url :
    nikeDedupAux [] [emptyUrlCard, emptyUrlCard] = [] := by decide

/-- C3 (amended): in both variants a record whose non-empty identity is
already in the accumulated set is skipped and a record with a new non-empty
identity is inserted in arrival order (so feeding the same non-empty
identity twice retains exactly one record); in the job variant records with
an empty `Job_Link` are always kept (two empty-identity records are both
retained), while in the product variant a record with an empty `productUrl`
is dropped. -/
theorem dedup_identity_semantics :
    (∀ j : JobRecord, j.jobLink ≠ [] → dedupJobs [j, j] = [j])
      ∧ (∀ j k : JobRecord, j.jobLink = [] → k.jobLink = [] →
          dedupJobs [j, k] = [j, k])
      ∧ (∀ p : Product, p.productUrl ≠ [] →
          nikeDedupAux [] [p, p] = [promote p])
      ∧ (∀ p : Product, p.productUrl = [] → nikeDedupAux [] [p] = [])
      ∧ (∀ (seen : List (List Char)) (j : JobRecord) (rest : List JobRecord),
          j.jobLink ≠ [] → j.jobLink ∈ seen →
          dedupJobsAux seen (j :: rest) = dedupJobsAux seen rest)
      ∧ (∀ (seen : List (List Char)) (j : JobRecord) (rest : List JobRecord),
          j.jobLink ≠ [] → j.jobLink ∉ seen →
          dedupJobsAux seen (j :: rest)
            = j :: dedupJobsAux (j.jobLink :: seen) rest)
      ∧ (∀ (seen : List (List Char)) (p : Product) (rest : List Product),
          p.productUrl ≠ [] → p.productUrl ∉ seen →
          nikeDedupAux seen (p :: rest)
            = promote p :: nikeDedupAux (p.productUrl :: seen) rest)
      ∧ (∀ (seen : List (List Char)) (p : Product) (rest : List Product),
          p.productUrl = [] → nikeDedupAux seen (p :: rest)
            = nikeDedupAux seen rest)
      ∧ (∀ l : List JobRecord, List.Sublist (dedupJobs l) l)
      ∧ (∀ l : List Product,
          List.Sublist (nikeDedupAux [] l) (l.map promote)) := by
  refine ⟨?_, ?_, ?_, ?_, ?_, ?_, ?_, ?_,
    fun l => dedupJobsAux_sublist l [], fun l => nikeDedupAux_sublist l []⟩
  · intro j h
    simp [dedupJobs, dedupJobsAux, h]
  · intro j k hj hk
    simp [dedupJobs, dedupJobsAux, hj, hk]
  · intro p h
    simp [nikeDedupAux, h]
  · intro p h
    simp [nikeDedupAux, h]
  · intro seen j rest h hm
    rw [dedupJobsAux, if_neg (by simp [hm]), if_neg h]
  · intro seen j rest h hm
    rw [dedupJobsAux, if_pos ⟨h, hm⟩]
  · intro seen p rest h hm
    rw [nikeDedupAux, if_pos ⟨h, hm⟩]
  · intro seen p rest h
    rw [nikeDedupAux, if_neg (by simp [h])]

/-- A concrete job record with a non-empty link, and the concrete instance of
the amended deduplication claim at it. -/
def jobEx : JobRecord :=
  { jobTitle := ['T'], companyTitle := [], companySlogan := [], jobType := [],
    location := [], workLocation := [], industry := [], employesCount := [],
    postedAgo := [], jobLink := ['h', 't', 't', 'p'] }

theorem dedup_identity_semantics_witness :
    dedupJobs [jobEx, jobEx] = [jobEx] :=
  dedup_identity_semantics.1 jobEx (by decide)

/-- JS `t.includes('₱')`: the filter applied to price-element texts. -/
def hasPeso (t : List Char) : Bool := t.contains '₱'

/-- A character matched by `[\d,]` in the fallback price regex. -/
def isPriceChar (c : Char) : Bool := c.isDigit || c == ','

/-- Model of `allText.match(/₱[\d,]+/g)`: every occurrence of `'₱'` followed
by a non-empty maximal run of digits/commas.  Scanning character by character
yields the same matches as the regex's non-overlapping scan because a match
never contains a further `'₱'` after its first character. -/
def priceMatches : List Char → List (List Char)
  | [] => []
  | c :: rest =>
    if c == '₱' && !(rest.takeWhile isPriceChar).isEmpty then
      ('₱' :: rest.takeWhile isPriceChar) :: priceMatches rest
    else priceMatches rest

/-- Model of the price-resolution block of `extract_products_from_page`:
from the `₱`-containing price-element texts, the strikethrough marker and the
card's raw text, compute `(originalPrice, discountPrice)`. -/
def cardPrices (elems : List (List Char)) (strike : Bool)
    (allText : List Char) : List Char × List Char :=
  let priceTexts := elems.filter hasPeso
  let od : List Char × List Char :=
    if priceTexts.length = 2 then (priceTexts.getD 0 [], priceTexts.getD 1 [])
    else if priceTexts.length = 1 then
      if strike then (priceTexts.getD 0 [], [])
      else (priceTexts.getD 0 [], priceTexts.getD 0 [])
    else ([], [])
  if od.1 = [] ∧ od.2 = [] then
    match priceMatches allText with
    | [] => od
    | [m] => (m, m)
    | m :: m2 :: _ => (m, m2)
  else od

theorem ne_nil_of_mem_filter_peso {a : List Char} {l : List (List Char)}
    (h : a ∈ l.filter hasPeso) : a ≠ [] := by
  rcases List.mem_filter.mp h with ⟨-, hp⟩
  intro hnil
  subst hnil
  exact absurd hp (by decide)

/-- C2: price-pair resolution — two found tokens put the first into
`originalPrice` and the second into `discountPrice`; a single token with the
strikethrough marker becomes `originalPrice` only; a single token without it
becomes both. -/
theorem price_pair_resolution (elems : List (List Char)) (allText : List Char) :
    (∀ a b, elems.filter hasPeso = [a, b] →
        ∀ strike, cardPrices elems strike allText = (a, b))
      ∧ (∀ a, elems.filter hasPeso = [a] →
          cardPrices elems true allText = (a, []))
      ∧ (∀ a, elems.filter hasPeso = [a] →
          cardPrices elems false allText = (a, a)) := by
  refine ⟨?_, ?_, ?_⟩
  · intro a b hf strike
    have ha : a ≠ [] := ne_nil_of_mem_filter_peso
      (by rw [hf]; exact List.mem_cons_self _ _)
    simp [cardPrices, hf, ha]
  · intro a hf
    have ha : a ≠ [] := ne_nil_of_mem_filter_peso
      (by rw [hf]; exact List.mem_cons_self _ _)
    simp [cardPrices, hf, ha]
  · intro a hf
    have ha : a ≠ [] := ne_nil_of_mem_filter_peso
      (by rw [hf]; exact List.mem_cons_self _ _)
    simp [cardPrices, hf, ha]

theorem price_pair_resolution_witness :
    cardPrices [['₱', '1', '0', '0'], ['₱', '8', '0']] true []
        = (['₱', '1', '0', '0'], ['₱', '8', '0'])
      ∧ cardPrices [['₱', '1', '0', '0']] false [] =
          (['₱', '1', '0', '0'], ['₱', '1', '0', '0'])
      ∧ cardPrices [['₱', '1', '0', '0']] true [] = (['₱', '1', '0', '0'], []) :=
  ⟨(price_pair_resolution _ _).1 _ _ (by decide) true,
    (price_pair_resolution _ _).2.2 _ (by decide),
    (price_pair_resolution _ _).2.1 _ (by decide)⟩

/-- C10 counterexample: the claim says the text fallback is used only when no
price element matched, but here three price-element texts match the `₱`
filter and the output still comes from the text fallback. -/
theorem fallback_despite_matched_elements :
    (([['₱', '1'], ['₱', '2'], ['₱', '3']] : List (List Char)).filter
          hasPeso).length = 3
      ∧ priceMatches ['x', '₱', '9'] = [['₱', '9']]
      ∧ cardPrices [['₱', '1'], ['₱', '2'], ['₱', '3']] true ['x', '₱', '9']
          = (['₱', '9'], ['₱', '9']) := by decide

/-- C10 (amended): the text-based price fallback runs whenever the primary
path assigned neither price (zero or three-or-more matching tokens); on it, a
raw text with exactly one currency-pattern substring assigns that substring
to both prices, and the strikethrough marker is never consulted. -/
theorem text_fallback_single_match (elems : List (List Char)) (strike : Bool)
    (allText m : List Char) (h2 : (elems.filter hasPeso).length ≠ 2)
    (h1 : (elems.filter hasPeso).length ≠ 1)
    (hm : priceMatches allText = [m]) :
    cardPrices elems strike allText = (m, m) := by
  simp only [cardPrices]
  rw [if_neg h2, if_neg h1, if_pos ⟨rfl, rfl⟩, hm]

theorem text_fallback_single_match_witness :
    cardPrices [] false ['₱', '9'] = (['₱', '9'], ['₱', '9']) :=
  text_fallback_single_match [] false ['₱', '9'] ['₱', '9'] (by decide)
    (by decide) (by decide)

/-- Value of a string of ASCII digits. -/
def digitsToNat (ds : List Char) : ℕ :=
  ds.foldl (fun n c => 10 * n + (c.toNat - 48)) 0

/-- Model of Python `int(s)`: optional sign around a non-empty digit string,
ignoring surrounding whitespace; `none` when the conversion raises. -/
def pyInt (s : List Char) : Option ℤ :=
  match pyStrip s with
  | '+' :: u =>
    if u ≠ [] ∧ u.all Char.isDigit then some (digitsToNat u) else none
  | '-' :: u =>
    if u ≠ [] ∧ u.all Char.isDigit then some (-(digitsToNat u : ℤ)) else none
  | u => if u ≠ [] ∧ u.all Char.isDigit then some (digitsToNat u) else none

/-- Unsigned part of `float(s)`: `digits`, `digits.`, `.digits` or
`digits.digits`. -/
def pyFloatCore (sign : ℚ) (u : List Char) : Option ℚ :=
  let ip := u.takeWhile Char.isDigit
  match u.dropWhile Char.isDigit with
  | [] => if ip = [] then none else some (sign * (digitsToNat ip : ℚ))
  | '.' :: frac =>
    if frac.all Char.isDigit then
      if ip = [] ∧ frac = [] then none
      else some (sign * ((digitsToNat ip : ℚ)
        + (digitsToNat frac : ℚ) / (10 ^ frac.length)))
    else none
  | _ => none

/-- Model of Python `float(s)` on decimal literals (the only float syntax the
scraped numeric fields use); exponent/inf/nan forms are not modelled.  Float
values are modelled as exact rationals. -/
def pyFloat (s : List Char) : Option ℚ :=
  match pyStrip s with
  | '+' :: u => pyFloatCore 1 u
  | '-' :: u => pyFloatCore (-1) u
  | u => pyFloatCore 1 u

/-- Model of `discountPrice.replace('₱', '').replace(',', '').strip()`
followed by `float(...)` in `print_top_10_expensive`. -/
def removeChar (c : Char) (s : List Char) : List Char :=
  s.filter fun d => !(d == c)

def parsePrice (s : List Char) : Option ℚ :=
  pyFloat (pyStrip (removeChar ',' (removeChar '₱' s)))

/-- Flag `has_discount` in `filter_and_save_products`: a truthy string whose strip
is non-empty. -/
def hasDiscount (p : Product) : Bool :=
  !p.discountPrice.isEmpty && !(pyStrip p.discountPrice).isEmpty

/-- Flag `has_tagging` in `filter_and_save_products` (diagnostic only). -/
def hasTagging (p : Product) : Bool :=
  !p.tagging.isEmpty && !(pyStrip p.tagging).isEmpty

/-- The export filter of `filter_and_save_products`: keep exactly the records
with a discount price. -/
def filter_and_save (ps : List Product) : List Product := ps.filter hasDiscount

/-- The diagnostic counter `empty_tagging_count`. -/
def emptyTaggingCount (ps : List Product) : ℕ :=
  (ps.filter fun p => !hasTagging p).length

/-- Header row of `nike_products.csv`. -/
def nikeHeaders : List (List Char) :=
  ["Product_URL".data, "Product_Image_URL".data, "Product_Tagging".data,
    "Product_Name".data, "Product_Description".data, "Original_Price".data,
    "Discount_Price".data, "Sizes_Available".data, "Vouchers".data,
    "Available_Colors".data, "Color_Shown".data, "Style_Code".data,
    "Rating_Score".data, "Review_Count".data]

/-- One CSV row of the product export, in header order. -/
def productRow (p : Product) : List (List Char) :=
  [p.productUrl, p.imageUrl, p.tagging, p.productName, p.description,
    p.originalPrice, p.discountPrice, p.sizesAvailable, p.vouchers,
    p.availableColors, p.colorShown, p.styleCode, p.ratingScore,
    p.reviewCount]

/-- Model of the CSV write in `filter_and_save_products`: no file at all when
no record passes the filter, otherwise header plus one row per record. -/
def nikeCsv (ps : List Product) : Option (List (List (List Char))) :=
  if (filter_and_save ps).isEmpty then none
  else some (nikeHeaders :: (filter_and_save ps).map productRow)

theorem filter_map_tagging (t : List Char) (ps : List Product) :
    (ps.map fun q => { q with tagging := t }).filter hasDiscount
      = (ps.filter hasDiscount).map fun q => { q with tagging := t } := by
  induction ps with
  | nil => rfl
  | cons p rest ih =>
    rw [List.map_cons, List.filter_cons, List.filter_cons]
    have h : hasDiscount { p with tagging := t } = hasDiscount p := rfl
    rw [h]
    cases hasDiscount p <;> simp [ih]

theorem hasDiscount_eq (p : Product) :
    hasDiscount p = !(pyStrip p.discountPrice).isEmpty := by
  unfold hasDiscount
  cases h : p.discountPrice with
  | nil => simp [h, pyStrip]
  | cons c rest => simp [h]

/-- C6: a product record is export-eligible iff its discount-price field is
non-empty after trimming whitespace; the tagging field never affects
eligibility (rewriting every record's tagging commutes with the filter), and
the CSV is exactly the header plus the rows of the eligible records. -/
theorem export_iff_discount (ps : List Product) :
    filter_and_save ps
        = ps.filter (fun p => !(pyStrip p.discountPrice).isEmpty)
      ∧ (∀ t, filter_and_save (ps.map fun q => { q with tagging := t })
          = (filter_and_save ps).map fun q => { q with tagging := t })
      ∧ nikeCsv ps
        = (if (ps.filter fun p => !(pyStrip p.discountPrice).isEmpty).isEmpty
            then none
            else some (nikeHeaders ::
              (ps.filter fun p =>
                !(pyStrip p.discountPrice).isEmpty).map productRow)) := by
  have hf : filter_and_save ps
      = ps.filter (fun p => !(pyStrip p.discountPrice).isEmpty) :=
    List.filter_congr fun p _ => hasDiscount_eq p
  refine ⟨hf, fun t => filter_map_tagging t ps, ?_⟩
  rw [nikeCsv, hf]

/-- Value of `int(product['reviewCount']) if product['reviewCount'] else 0` in
`create_top_20_rating_review`; `none` when the conversion raises. -/
def parsedReviews (p : Product) : Option ℤ :=
  if p.reviewCount.isEmpty then some 0 else pyInt p.reviewCount

/-- Value of `float(product['ratingScore']) if product['ratingScore'] else 0`;
`none` when the conversion raises. -/
def parsedRating (p : Product) : Option ℚ :=
  if p.ratingScore.isEmpty then some 0 else pyFloat p.ratingScore

/-- A record survives the eligibility step of `create_top_20_rating_review`:
neither conversion raises and the parsed review count exceeds 150. -/
def top20Eligible (p : Product) : Bool :=
  match parsedReviews p, parsedRating p with
  | some rc, some _ => decide (150 < rc)
  | _, _ => false

/-- One entry of `eligible_products` (product name/URL plus parsed keys). -/
structure EligItem where
  productName : List Char
  productUrl : List Char
  rating : ℚ
  reviews : ℤ
deriving DecidableEq, Inhabited

/-- The `eligible_products` list built by `create_top_20_rating_review`. -/
def eligList (ps : List Product) : List EligItem :=
  ps.filterMap fun p =>
    match parsedReviews p, parsedRating p with
    | some rc, some rs =>
      if 150 < rc then some ⟨p.productName, p.productUrl, rs, rc⟩ else none
    | _, _ => none

/-- Eligibility as the claim words it: the review count parses as an integer
greater than 150 and the rating parses as a float. -/
def specC5Eligible (p : Product) : Bool :=
  (match pyInt p.reviewCount with
    | some n => decide (150 < n)
    | none => false) && (pyFloat p.ratingScore).isSome

/-- A product whose review count parses as 200 but whose rating field is
empty (so it does not parse as a float). -/
def ratingless : Product :=
  { productUrl := ['u'], imageUrl := [], tagging := [], productName := [],
    description := [], originalPrice := [], discountPrice := [],
    sizesAvailable := [], vouchers := [], availableColors := [],
    colorShown := [], styleCode := [], ratingScore := [],
    reviewCount := ['2', '0', '0'] }

/-- C5 counterexample: the code treats an empty rating field as rating 0 and
keeps the record eligible, while the claim requires the rating to parse as a
float. -/
theorem eligibility_spec_mismatch :
    top20Eligible ratingless = true ∧ specC5Eligible ratingless = false := by
  decide

/-- Helper `mkElig` records the parsed keys carried alongside an eligible record. -/
def mkElig (p : Product) : EligItem :=
  ⟨p.productName, p.productUrl, (parsedRating p).getD 0, (parsedReviews p).getD 0⟩

/-- C5 (amended): a record is ranking-eligible iff its review count parses as
an integer above 150 and its rating field is empty (treated as rating 0) or
parses as a float; the eligible list is exactly the eligible records with
their parsed keys; and export eligibility never reads the rating or review
fields, so records excluded from this ranking stay in the primary export. -/
theorem top20_eligibility (p : Product) :
    (top20Eligible p
        = ((match pyInt p.reviewCount with
            | some n => decide (150 < n)
            | none => false)
          && (p.ratingScore.isEmpty || (pyFloat p.ratingScore).isSome)))
      ∧ (∀ ps : List Product,
          eligList ps = (ps.filter top20Eligible).map mkElig)
      ∧ (∀ (q : Product) (rs rc : List Char),
          hasDiscount { q with ratingScore := rs, reviewCount := rc }
            = hasDiscount q) := by
  refine ⟨?_, ?_, fun q rs rc => rfl⟩
  · by_cases hrc : p.reviewCount.isEmpty
    · have hnil : p.reviewCount = [] := by simpa using hrc
      have hint : pyInt p.reviewCount = none := by rw [hnil]; rfl
      rw [hint]
      simp only [top20Eligible, parsedReviews, hrc, if_pos]
      cases parsedRating p <;> simp
    · simp only [top20Eligible, parsedReviews, hrc, if_neg, Bool.false_eq_true,
        ite_false]
      cases hint : pyInt p.reviewCount with
      | none => cases parsedRating p <;> simp
      | some n =>
        by_cases hrs : p.ratingScore.isEmpty
        · simp [parsedRating, hrs]
        · simp only [parsedRating, hrs, Bool.false_eq_true, ite_false]
          cases hfl : pyFloat p.ratingScore <;> simp [hrs]
  · intro ps
    induction ps with
    | nil => rfl
    | cons q rest ih =>
      simp only [eligList] at ih ⊢
      rw [List.filterMap_cons, List.filter_cons]
      have hq : (match parsedReviews q, parsedRating q with
          | some rc, some rs =>
            if 150 < rc then
              some (⟨q.productName, q.productUrl, rs, rc⟩ : EligItem)
            else none
          | _, _ => none)
          = if top20Eligible q then some (mkElig q) else none := by
        unfold top20Eligible mkElig
        cases h1 : parsedReviews q <;> cases h2 : parsedRating q <;>
          simp [h1, h2]
      rw [hq]
      cases top20Eligible q <;> simp [ih]

/-- One entry of `ranked_products` in `create_top_20_rating_review`. -/
structure RankedEntry where
  rank : ℕ
  productName : List Char
  productUrl : List Char
  rating : ℚ
  reviews : ℤ
deriving DecidableEq, Inhabited

/-- The `(rating, reviews)` comparison key of an eligible record. -/
def itemKey (it : EligItem) : ℚ × ℤ := (it.rating, it.reviews)

/-- The `(rating, reviews)` key carried by a ranked entry. -/
def entryKey (e : RankedEntry) : ℚ × ℤ := (e.rating, e.reviews)

def mkEntry (it : EligItem) (r : ℕ) : RankedEntry :=
  ⟨r, it.productName, it.productUrl, it.rating, it.reviews⟩

def noEntry : RankedEntry := ⟨0, [], [], 0, 0⟩

def noItem : EligItem := ⟨[], [], 0, 0⟩

/-- The rank-assignment loop of `create_top_20_rating_review`: `i` is the
0-based index of the current item, `pk` the preceding item's key, `pr` the
preceding item's assigned rank. -/
def rankLoop : List EligItem → ℕ → ℚ × ℤ → ℕ → List RankedEntry
  | [], _, _, _ => []
  | it :: rest, i, pk, pr =>
    let r := if itemKey it = pk then pr else i + 1
    mkEntry it r :: rankLoop rest (i + 1) (itemKey it) r

/-- Rank assignment over `eligible_products[:20]`: the first item gets rank 1
and the loop above handles the rest. -/
def createRanked (elig : List EligItem) : List RankedEntry :=
  match elig.take 20 with
  | [] => []
  | it :: rest => mkEntry it 1 :: rankLoop rest 1 (itemKey it) 1

/-- Whether `a` sorts strictly before `b` under the key `(-rating, -reviews)`. -/
def sortsBefore (a b : EligItem) : Bool :=
  decide (b.rating < a.rating)
    || (decide (a.rating = b.rating) && decide (b.reviews < a.reviews))

/-- Stable insertion for the sort by `(-rating, -reviews)`. -/
def insertElig (x : EligItem) : List EligItem → List EligItem
  | [] => [x]
  | y :: ys => if sortsBefore y x then y :: insertElig x ys else x :: y :: ys

/-- Model of the stable `list.sort(key=lambda x: (-rating, -reviews))`. -/
def sortElig : List EligItem → List EligItem
  | [] => []
  | x :: xs => insertElig x (sortElig xs)

/-- The whole `create_top_20_rating_review` selection/sort/rank pipeline. -/
def create_top_20 (ps : List Product) : List RankedEntry :=
  createRanked (sortElig (eligList ps))

theorem rankLoop_map_key (rest : List EligItem) :
    ∀ (i : ℕ) (pk : ℚ × ℤ) (pr : ℕ),
      (rankLoop rest i pk pr).map entryKey = rest.map itemKey := by
  induction rest with
  | nil => intro i pk pr; rfl
  | cons it rest ih =>
    intro i pk pr
    simp only [rankLoop, List.map_cons, ih]
    rfl

theorem rankLoop_length (rest : List EligItem) (i : ℕ) (pk : ℚ × ℤ) (pr : ℕ) :
    (rankLoop rest i pk pr).length = rest.length := by
  have h := congrArg List.length (rankLoop_map_key rest i pk pr)
  simpa using h

theorem rankLoop_key_getD (rest : List EligItem) :
    ∀ (i : ℕ) (pk : ℚ × ℤ) (pr : ℕ) (j : ℕ), j < rest.length →
      entryKey ((rankLoop rest i pk pr).getD j noEntry)
        = itemKey (rest.getD j noItem) := by
  induction rest with
  | nil => intro i pk pr j hj; simp at hj
  | cons it rest ih =>
    intro i pk pr j hj
    cases j with
    | zero => rfl
    | succ k =>
      have hk : k < rest.length := by simpa using hj
      simp only [rankLoop, List.getD_cons_succ]
      exact ih (i + 1) (itemKey it) (if itemKey it = pk then pr else i + 1) k hk

theorem rankLoop_rank_zero (it : EligItem) (rest : List EligItem) (i : ℕ)
    (pk : ℚ × ℤ) (pr : ℕ) :
    ((rankLoop (it :: rest) i pk pr).getD 0 noEntry).rank
      = if itemKey it = pk then pr else i + 1 := rfl

theorem rankLoop_rank_succ (rest : List EligItem) :
    ∀ (i : ℕ) (pk : ℚ × ℤ) (pr : ℕ) (k : ℕ), k + 1 < rest.length →
      ((rankLoop rest i pk pr).getD (k + 1) noEntry).rank
        = if itemKey (rest.getD (k + 1) noItem)
              = itemKey (rest.getD k noItem)
          then ((rankLoop rest i pk pr).getD k noEntry).rank
          else i + k + 2 := by
  induction rest with
  | nil => intro i pk pr k hk; simp at hk
  | cons it rest ih =>
    intro i pk pr k hk
    cases k with
    | zero =>
      cases rest with
      | nil => simp at hk
      | cons u rest2 =>
        simp only [rankLoop, List.getD_cons_succ, List.getD_cons_zero, mkEntry]
    | succ k2 =>
      have hk2 : k2 + 1 < rest.length := by simpa using hk
      simp only [rankLoop, List.getD_cons_succ]
      rw [ih (i + 1) (itemKey it) (if itemKey it = pk then pr else i + 1) k2 hk2]
      have harith : i + 1 + k2 + 2 = i + (k2 + 1) + 2 := by omega
      rw [harith]

/-- The tie example of the claim: keys `(4.8, 200), (4.8, 200), (4.7, 500)`. -/
def exTie : List EligItem :=
  [⟨['a'], [], 4.8, 200⟩, ⟨['b'], [], 4.8, 200⟩, ⟨['c'], [], 4.7, 500⟩]

/-- C1: in the top-20 ranking the entries carry the keys of the first twenty
sorted eligible records in order; the first entry gets rank 1; an entry at
0-based index `i > 0` gets rank `i + 1` unless its `(rating, reviewCount)`
pair equals the preceding entry's pair, in which case it inherits the
preceding entry's rank; the `(4.8, 200), (4.8, 200), (4.7, 500)` example
yields ranks `[1, 1, 3]`. -/
theorem rank_assignment (elig : List EligItem) :
    (createRanked elig).map entryKey = (elig.take 20).map itemKey
      ∧ (0 < (createRanked elig).length →
          ((createRanked elig).getD 0 noEntry).rank = 1)
      ∧ (∀ i, 0 < i → i < (createRanked elig).length →
          ((createRanked elig).getD i noEntry).rank =
            if entryKey ((createRanked elig).getD i noEntry)
                = entryKey ((createRanked elig).getD (i - 1) noEntry)
            then ((createRanked elig).getD (i - 1) noEntry).rank
            else i + 1)
      ∧ (createRanked exTie).map RankedEntry.rank = [1, 1, 3] := by
  have hex : (createRanked exTie).map RankedEntry.rank = [1, 1, 3] := by
    norm_num [createRanked, exTie, rankLoop, itemKey, mkEntry]
  cases ht : elig.take 20 with
  | nil =>
    have hcr : createRanked elig = [] := by unfold createRanked; rw [ht]
    refine ⟨?_, ?_, ?_, hex⟩
    · rw [hcr]; rfl
    · intro h; rw [hcr] at h; simp at h
    · intro i hi hlen; rw [hcr] at hlen; simp at hlen
  | cons it rest =>
    have hcr : createRanked elig
        = mkEntry it 1 :: rankLoop rest 1 (itemKey it) 1 := by
      unfold createRanked; rw [ht]
    refine ⟨?_, ?_, ?_, hex⟩
    · rw [hcr, List.map_cons, List.map_cons, rankLoop_map_key]
      rfl
    · intro _; rw [hcr]; rfl
    · intro i hi hilen
      rw [hcr] at hilen ⊢
      obtain ⟨k, rfl⟩ : ∃ k, i = k + 1 := ⟨i - 1, by omega⟩
      simp only [Nat.add_sub_cancel, List.getD_cons_succ, List.length_cons,
        rankLoop_length] at hilen ⊢
      cases k with
      | zero =>
        have hr : 0 < rest.length := by omega
        cases rest with
        | nil => simp at hr
        | cons u rest2 =>
          rw [List.getD_cons_zero, rankLoop_rank_zero]
          have hk0 : entryKey
              ((rankLoop (u :: rest2) 1 (itemKey it) 1).getD 0 noEntry)
              = itemKey ((u :: rest2).getD 0 noItem) :=
            rankLoop_key_getD (u :: rest2) 1 (itemKey it) 1 0 (by simp)
          rw [List.getD_cons_zero] at hk0
          rw [hk0]
          have hmk : entryKey (mkEntry it 1) = itemKey it := rfl
          rw [hmk]
          by_cases hc : itemKey u = itemKey it <;> simp [hc, mkEntry]
      | succ k2 =>
        have hk2len : k2 + 1 < rest.length := by omega
        rw [List.getD_cons_succ,
          rankLoop_rank_succ rest 1 (itemKey it) 1 k2 hk2len,
          rankLoop_key_getD rest 1 (itemKey it) 1 (k2 + 1) hk2len,
          rankLoop_key_getD rest 1 (itemKey it) 1 k2 (by omega)]
        have harith : 1 + k2 + 2 = k2 + 1 + 1 + 1 := by omega
        rw [harith]

theorem rank_assignment_witness :
    ((createRanked exTie).getD 2 noEntry).rank =
      if entryKey ((createRanked exTie).getD 2 noEntry)
          = entryKey ((createRanked exTie).getD 1 noEntry)
      then ((createRanked exTie).getD 1 noEntry).rank
      else 2 + 1 :=
  (rank_assignment exTie).2.2.1 2 (by omega)
    (by norm_num [createRanked, exTie, rankLoop, itemKey, mkEntry])

theorem takeWhile_all_append (q : Char → Bool) (v : List Char)
    (hv : ∀ c ∈ v, q c = true) (d : Char) (hd : q d = false) (t : List Char) :
    (v ++ d :: t).takeWhile q = v := by
  induction v with
  | nil => simp [List.takeWhile_cons, hd]
  | cons c v' ih =>
    rw [List.cons_append, List.takeWhile_cons, hv c (List.mem_cons_self _ _)]
    simp [ih fun x hx => hv x (List.mem_cons_of_mem _ hx)]

theorem dropWhile_all_append (q : Char → Bool) (v : List Char)
    (hv : ∀ c ∈ v, q c = true) (d : Char) (hd : q d = false) (t : List Char) :
    (v ++ d :: t).dropWhile q = d :: t := by
  induction v with
  | nil => simp [List.dropWhile_cons, hd]
  | cons c v' ih =>
    rw [List.cons_append, List.dropWhile_cons, hv c (List.mem_cons_self _ _)]
    simp [ih fun x hx => hv x (List.mem_cons_of_mem _ hx)]

/-- Evaluation rule for `pyFloat` on an unsigned decimal `ip.frac`. -/
theorem pyFloat_decimal (s ip frac : List Char)
    (hs : pyStrip s = ip ++ '.' :: frac)
    (hip : ∀ c ∈ ip, c.isDigit = true)
    (hfrac : ∀ c ∈ frac, c.isDigit = true)
    (hne : ip ≠ []) :
    pyFloat s = some ((digitsToNat ip : ℚ)
      + (digitsToNat frac : ℚ) / 10 ^ frac.length) := by
  cases ip with
  | nil => exact absurd rfl hne
  | cons d ip' =>
    have hd : d.isDigit = true := hip d (List.mem_cons_self _ _)
    rw [List.cons_append] at hs
    unfold pyFloat
    rw [hs]
    split
    · rename_i u heq
      injection heq with h1 _
      subst h1
      exact absurd hd (by decide)
    · rename_i u heq
      injection heq with h1 _
      subst h1
      exact absurd hd (by decide)
    · unfold pyFloatCore
      rw [← List.cons_append,
        takeWhile_all_append Char.isDigit (d :: ip') hip '.' (by decide) frac,
        dropWhile_all_append Char.isDigit (d :: ip') hip '.' (by decide) frac]
      simp only []
      rw [if_pos (List.all_eq_true.mpr hfrac)]
      rw [if_neg (by simp)]
      rw [one_mul]

/-- List `products_with_price` in `print_top_10_expensive`: each record paired
with its parsed discount price, parse failures skipped. -/
def pricedOf (ps : List Product) : List (Product × ℚ) :=
  ps.filterMap fun p => (parsePrice p.discountPrice).map fun v => (p, v)

/-- Stable insertion for the descending-by-price sort. -/
def insertDesc (x : Product × ℚ) : List (Product × ℚ) → List (Product × ℚ)
  | [] => [x]
  | y :: ys => if x.2 < y.2 then y :: insertDesc x ys else x :: y :: ys

/-- Model of the stable `sort(key=lambda x: x[1], reverse=True)`. -/
def sortDesc : List (Product × ℚ) → List (Product × ℚ)
  | [] => []
  | x :: xs => insertDesc x (sortDesc xs)

def sortedPriced (ps : List Product) : List (Product × ℚ) :=
  sortDesc (pricedOf ps)

/-- Model of `enumerate(..., 1)`: 1-based positions. -/
def numberFrom (n : ℕ) : List (Product × ℚ) → List (ℕ × Product × ℚ)
  | [] => []
  | x :: xs => (n, x) :: numberFrom (n + 1) xs

/-- The printed top-10 listing of `print_top_10_expensive`. -/
def top10 (ps : List Product) : List (ℕ × Product × ℚ) :=
  numberFrom 1 ((sortedPriced ps).take 10)

theorem insertDesc_perm (x : Product × ℚ) (l : List (Product × ℚ)) :
    List.Perm (insertDesc x l) (x :: l) := by
  induction l with
  | nil => exact List.Perm.refl _
  | cons y ys ih =>
    rw [insertDesc]
    split
    · exact List.Perm.trans (List.Perm.cons y ih) (List.Perm.swap x y ys)
    · exact List.Perm.refl _

theorem sortDesc_perm (l : List (Product × ℚ)) :
    List.Perm (sortDesc l) l := by
  induction l with
  | nil => exact List.Perm.refl _
  | cons x xs ih =>
    exact List.Perm.trans (insertDesc_perm x (sortDesc xs))
      (List.Perm.cons x ih)

theorem insertDesc_pairwise (x : Product × ℚ) (l : List (Product × ℚ))
    (h : List.Pairwise (fun a b => b.2 ≤ a.2) l) :
    List.Pairwise (fun a b => b.2 ≤ a.2) (insertDesc x l) := by
  induction l with
  | nil => simp [insertDesc]
  | cons y ys ih =>
    rcases List.pairwise_cons.mp h with ⟨hy, hys⟩
    rw [insertDesc]
    split
    · rename_i hlt
      refine List.pairwise_cons.mpr ⟨?_, ih hys⟩
      intro z hz
      rcases List.mem_cons.mp ((insertDesc_perm x ys).mem_iff.mp hz)
        with rfl | hzys
      · exact le_of_lt hlt
      · exact hy z hzys
    · rename_i hge
      refine List.pairwise_cons.mpr ⟨?_, h⟩
      intro z hz
      rcases List.mem_cons.mp hz with rfl | hzys
      · exact le_of_not_lt hge
      · exact le_trans (hy z hzys) (le_of_not_lt hge)

theorem sortDesc_pairwise (l : List (Product × ℚ)) :
    List.Pairwise (fun a b => b.2 ≤ a.2) (sortDesc l) := by
  induction l with
  | nil => simp [sortDesc]
  | cons x xs ih => exact insertDesc_pairwise x (sortDesc xs) ih

theorem pricedOf_map_fst (ps : List Product) :
    (pricedOf ps).map Prod.fst
      = ps.filter fun p => (parsePrice p.discountPrice).isSome := by
  induction ps with
  | nil => rfl
  | cons p rest ih =>
    simp only [pricedOf] at ih ⊢
    rw [List.filterMap_cons, List.filter_cons]
    cases h : parsePrice p.discountPrice with
    | none => simp [h, ih]
    | some v => simp [h, ih]

theorem numberFrom_map_fst (l : List (Product × ℚ)) :
    ∀ n, (numberFrom n l).map Prod.fst = List.range' n l.length := by
  induction l with
  | nil => intro n; rfl
  | cons x xs ih =>
    intro n
    rw [numberFrom, List.map_cons, ih (n + 1), List.length_cons,
      List.range'_succ]

theorem numberFrom_map_snd (l : List (Product × ℚ)) :
    ∀ n, (numberFrom n l).map Prod.snd = l := by
  induction l with
  | nil => intro n; rfl
  | cons x xs ih => intro n; rw [numberFrom, List.map_cons, ih (n + 1)]

/-- A product carrying only a discount price (enough for the price ranking). -/
def priceOnly (dp : List Char) : Product :=
  { productUrl := [], imageUrl := [], tagging := [], productName := [],
    description := [], originalPrice := [], discountPrice := dp,
    sizesAvailable := [], vouchers := [], availableColors := [],
    colorShown := [], styleCode := [], ratingScore := [], reviewCount := [] }

/-- The price example of the claim: `₱1,000.00`, `₱999.99`, `₱1,000.01` and a
malformed `N/A`. -/
def exPriced : List Product :=
  [priceOnly ['₱', '1', ',', '0', '0', '0', '.', '0', '0'],
    priceOnly ['₱', '9', '9', '9', '.', '9', '9'],
    priceOnly ['₱', '1', ',', '0', '0', '0', '.', '0', '1'],
    priceOnly ['N', '/', 'A']]

theorem parsePrice_ex1 :
    parsePrice ['₱', '1', ',', '0', '0', '0', '.', '0', '0'] = some 1000 := by
  unfold parsePrice
  rw [pyFloat_decimal _ ['1', '0', '0', '0'] ['0', '0'] (by decide) (by decide)
    (by decide) (by decide)]
  rw [show digitsToNat ['1', '0', '0', '0'] = 1000 from by decide,
    show digitsToNat ['0', '0'] = 0 from by decide]
  norm_num

theorem parsePrice_ex2 :
    parsePrice ['₱', '9', '9', '9', '.', '9', '9'] = some 999.99 := by
  unfold parsePrice
  rw [pyFloat_decimal _ ['9', '9', '9'] ['9', '9'] (by decide) (by decide)
    (by decide) (by decide)]
  rw [show digitsToNat ['9', '9', '9'] = 999 from by decide,
    show digitsToNat ['9', '9'] = 99 from by decide]
  norm_num

theorem parsePrice_ex3 :
    parsePrice ['₱', '1', ',', '0', '0', '0', '.', '0', '1'] = some 1000.01 := by
  unfold parsePrice
  rw [pyFloat_decimal _ ['1', '0', '0', '0'] ['0', '1'] (by decide) (by decide)
    (by decide) (by decide)]
  rw [show digitsToNat ['1', '0', '0', '0'] = 1000 from by decide,
    show digitsToNat ['0', '1'] = 1 from by decide]
  norm_num

theorem parsePrice_exna : parsePrice ['N', '/', 'A'] = none := by decide

/-- C9: the top-10-by-price pool pairs each record with its parsed discount
price (currency symbol and commas stripped) and consists of exactly the
records whose price parses; the sorted list is a descending permutation of
that pool; the emitted listing is exactly the first 10 (or fewer) sorted
entries with 1-based positions; on the claim's example the malformed `N/A`
record is excluded and the three prices rank as 1000.01, 1000.00, 999.99. -/
theorem top10_by_price (ps : List Product) :
    ((pricedOf ps).map Prod.fst
        = ps.filter fun p => (parsePrice p.discountPrice).isSome)
      ∧ List.Pairwise (fun a b => b.2 ≤ a.2) (sortedPriced ps)
      ∧ List.Perm (sortedPriced ps) (pricedOf ps)
      ∧ (top10 ps).map Prod.fst = List.range' 1 (min 10 (pricedOf ps).length)
      ∧ (top10 ps).map Prod.snd = (sortedPriced ps).take 10
      ∧ (pricedOf exPriced).length = 3
      ∧ (sortedPriced exPriced).map Prod.snd = [1000.01, 1000, 999.99] := by
  refine ⟨pricedOf_map_fst ps, sortDesc_pairwise _, sortDesc_perm _,
    ?_, ?_, ?_, ?_⟩
  · rw [top10, numberFrom_map_fst, List.length_take, sortedPriced,
      (sortDesc_perm (pricedOf ps)).length_eq]
  · rw [top10, numberFrom_map_snd]
  · simp only [pricedOf, exPriced, priceOnly, List.filterMap_cons,
      List.filterMap_nil]
    rw [parsePrice_ex1, parsePrice_ex2, parsePrice_ex3, parsePrice_exna]
    rfl
  · simp only [sortedPriced, pricedOf, exPriced, priceOnly,
      List.filterMap_cons, List.filterMap_nil]
    rw [parsePrice_ex1, parsePrice_ex2, parsePrice_ex3, parsePrice_exna]
    norm_num [sortDesc, insertDesc]
